import Mathlib

/-!
Verification development for the gnolang scope table, address resolver and
related helpers of gnovm/pkg/gnolang/nodes.go.

The Go code is shallowly embedded: the receiver StaticBlock together with its
chain of parent block nodes (one per call to GetParentNode) is modelled as a
List of StaticBlock records, head first; the fixed universal scope
(UverseNode) is an extra StaticBlock parameter.  Mutation of extern lists is
modelled by returning the updated chain.  A Go panic (and the degenerate
nil-node return of GetBlockNodeForPath after walking past the root) is
modelled as none.  Machine integers (uint8 depth, uint16 index and NumNames)
are Nats; every place the Go code guards a conversion is translated with the
same guard, so no modular arithmetic arises.  Store-mediated RefNode
resolution (Block.GetSource) is the identity in this model, and the two
predicates isFile / fauxChildBlockNode on the source node of a block are
carried as Boolean fields of the block.
-/

namespace Gno

abbrev GName := String

/-- The blank identifier, as in the Go source. -/
def blankIdentifier : GName := "_"

/-- Types, reduced to what StaticBlock.Define2 inspects: the TypeID used for
the conflict check, whether the kind is FuncKind, and for function types
whether the underlying FuncType is zero (the func-upgrade marker).  The Go
helpers Kind, TypeID, baseOf and FuncType.IsZero live outside the sampled
file; they are modelled from the spec sentence about controlled upgrade of a
previously defined function value: a fn type carries its zero flag, and every
type carries a numeric TypeID. -/
inductive Ty where
  | fn (isZero : Bool) (tid : Nat)
  | base (tid : Nat)
deriving DecidableEq

def Ty.typeId : Ty → Nat
  | .fn _ t => t
  | .base t => t

def Ty.isFuncKind : Ty → Bool
  | .fn _ _ => true
  | .base _ => false

/-- Models baseOf(t).(*FuncType).IsZero() for a type already known to have
FuncKind. -/
def Ty.isZeroFuncBase : Ty → Bool
  | .fn z _ => z
  | .base _ => false

/-- Runtime values, reduced to what Define2 inspects: FuncValue (with its
mutable Type field) versus anything else; the id models Go pointer identity,
which is what the inequality tv.V != old.V compares. -/
inductive Val where
  | funcVal (ty : Option Ty) (id : Nat)
  | otherVal (id : Nat)
deriving DecidableEq

/-- TypedValue with the two fields Define2 reads. -/
structure TypedValue where
  T : Option Ty
  V : Option Val
deriving DecidableEq

/-- Modelled from the spec: TypedValue.IsUndefined (defined outside the
sampled file) holds for the zero TypedValue, used by Define2 to recognize a
slot that was only reserved by Predefine. -/
def TypedValue.IsUndefined (tv : TypedValue) : Bool :=
  tv.T = none && tv.V = none

/-- StaticBlock, with Block.Values inlined as the Values field.  The two
Boolean flags record isFile(source) and fauxChildBlockNode(source) for the
node embedding this block; parent links are implicit in the chain lists. -/
structure StaticBlock where
  Names : List GName
  Types : List (Option Ty)
  Values : List TypedValue
  Consts : List GName
  HeapItems : List Bool
  Externs : List GName
  NumNames : Nat
  oldValues : List (Nat × Option Val)
  isFileNode : Bool
  isFauxChild : Bool
deriving DecidableEq

/-- First index of n in the name list; (0, false) of the Go original becomes
none. -/
def getLocalIndex (ns : List GName) (n : GName) : Option Nat :=
  match ns with
  | [] => none
  | m :: rest => if m = n then some 0 else (getLocalIndex rest n).map (· + 1)

def StaticBlock.GetLocalIndex (sb : StaticBlock) (n : GName) : Option Nat :=
  getLocalIndex sb.Names n

def StaticBlock.addExternName (sb : StaticBlock) (n : GName) : StaticBlock :=
  if n ∈ sb.Externs then sb else { sb with Externs := sb.Externs ++ [n] }

/-- The extern update GetPathForName applies to each traversed block: file
blocks are skipped, all others record the name. -/
def updExt (n : GName) (sb : StaticBlock) : StaticBlock :=
  if sb.isFileNode then sb else sb.addExternName n

-- ----------------------------------------
-- Value paths

inductive VPType where
  | VPUverse
  | VPBlock
  | VPField
  | VPValMethod
  | VPPtrMethod
  | VPInterface
  | VPSubrefField
  | VPDerefField
  | VPDerefValMethod
  | VPDerefPtrMethod
  | VPDerefInterface
deriving DecidableEq

/-- ValuePath; the field named Type in Go is called Vtype here because Type
is a Lean keyword. -/
structure ValuePath where
  Vtype : VPType
  Depth : Nat
  Index : Nat
  Name : GName
deriving DecidableEq

def MaxValuePathDepth : Nat := 127

def ValuePath.validateDepth (vp : ValuePath) : Bool :=
  vp.Depth ≤ MaxValuePathDepth

def ValuePath.validate (vp : ValuePath) : Bool :=
  vp.validateDepth &&
    match vp.Vtype with
    | .VPUverse => vp.Depth = 0
    | .VPBlock => true
    | .VPField => vp.Depth ≤ 1
    | .VPValMethod => vp.Depth = 0
    | .VPPtrMethod => vp.Depth = 0
    | .VPInterface => vp.Depth = 0 && vp.Name ≠ ""
    | .VPSubrefField => vp.Depth ≤ 3
    | .VPDerefField => vp.Depth ≤ 3
    | .VPDerefValMethod => vp.Depth = 0
    | .VPDerefPtrMethod => vp.Depth = 0
    | .VPDerefInterface => vp.Depth = 0 && vp.Name ≠ ""

/-- SetDepth stores the depth and then validates; the panic of validateDepth
is none. -/
def ValuePath.SetDepth (vp : ValuePath) (d : Nat) : Option ValuePath :=
  if ValuePath.validateDepth { vp with Depth := d } then some { vp with Depth := d }
  else none

def NewValuePath (t : VPType) (depth index : Nat) (n : GName) : Option ValuePath :=
  if ValuePath.validate { Vtype := t, Depth := depth, Index := index, Name := n } then
    some { Vtype := t, Depth := depth, Index := index, Name := n }
  else none

def NewValuePathUverse (index : Nat) (n : GName) : Option ValuePath :=
  NewValuePath .VPUverse 0 index n

def NewValuePathBlock (depth index : Nat) (n : GName) : Option ValuePath :=
  NewValuePath .VPBlock depth index n

-- ----------------------------------------
-- GetPathForName / GetBlockNodeForPath

/-- The ancestor loop of StaticBlock.GetPathForName.  rest is the remaining
ancestor chain, gen and fauxChild the counters at the point the head of rest
is about to be tested; uv is the universal scope consulted after the chain is
exhausted.  Returns the path together with the chain updated by the extern
recording side effect. -/
def gpfnLoop (uv : StaticBlock) (n : GName) :
    List StaticBlock → Nat → Nat → Option (ValuePath × List StaticBlock)
  | [], _, _ =>
      match getLocalIndex uv.Names n with
      | some idx =>
          match NewValuePathUverse idx n with
          | some vp => some (vp, [])
          | none => none
      | none => none
  | sn :: rest, gen, fauxChild =>
      match getLocalIndex sn.Names n with
      | some idx =>
          if 255 < gen - fauxChild then none
          else
            match NewValuePathBlock (gen - fauxChild) idx n with
            | some vp => some (vp, sn :: rest)
            | none => none
      | none =>
          match gpfnLoop uv n rest (gen + 1)
              (if sn.isFauxChild then fauxChild + 1 else fauxChild) with
          | some (vp, rest2) => some (vp, updExt n sn :: rest2)
          | none => none

/-- StaticBlock.GetPathForName.  The chain holds the receiver block first,
then its ancestors in order; the final uverse check uses uv.  The empty
chain, which has no Go counterpart because the receiver block is always
present, is mapped to none. -/
def GetPathForName : List StaticBlock → StaticBlock → GName →
    Option (ValuePath × List StaticBlock)
  | [], _, _ => none
  | sb :: rest, uv, n =>
      if n = blankIdentifier then
        match NewValuePathBlock 0 0 blankIdentifier with
        | some vp => some (vp, sb :: rest)
        | none => none
      else
        match getLocalIndex sb.Names n with
        | some idx =>
            match NewValuePathBlock 1 idx n with
            | some vp => some (vp, sb :: rest)
            | none => none
        | none =>
            match gpfnLoop uv n rest 2 (if sb.isFauxChild then 1 else 0) with
            | some (vp, rest2) => some (vp, updExt n sb :: rest2)
            | none => none

/-- The ancestor walk of GetBlockNodeForPath: one step per iteration, one
extra step when the current node is a faux child.  Walking past the root
(nil parent in Go, leading either to a panic or to a nil result) is none. -/
def gbnWalk : List StaticBlock → Nat → Option (StaticBlock × List StaticBlock)
  | [], _ => none
  | bn :: rest, 0 => some (bn, rest)
  | bn :: rest, steps + 1 =>
      if bn.isFauxChild then
        match rest with
        | [] => none
        | _ :: rest2 => gbnWalk rest2 steps
      else gbnWalk rest steps

/-- StaticBlock.GetBlockNodeForPath.  After the walk, a faux child final node
defers to its faux parent when the index lies inside the parent. -/
def GetBlockNodeForPath (chain : List StaticBlock) (path : ValuePath) :
    Option StaticBlock :=
  if path.Vtype = VPType.VPBlock then
    match gbnWalk chain (path.Depth - 1) with
    | none => none
    | some (bn, rest) =>
        if bn.isFauxChild then
          match rest with
          | [] => none
          | pn :: _ => if path.Index < pn.NumNames then some pn else some bn
        else some bn
  else none

-- ----------------------------------------
-- Define2 / Define / Predefine

/-- In-place update of the slot at idx, as the two assignments at the end of
Define2; an out of range index is a Go panic, hence none. -/
def writeSlot (sb : StaticBlock) (idx : Nat) (tv : TypedValue) (st : Option Ty) :
    Option StaticBlock :=
  if idx < sb.Values.length ∧ idx < sb.Types.length then
    some { sb with Values := sb.Values.set idx tv, Types := sb.Types.set idx st }
  else none

/-- StaticBlock.Define2.  The successive guards mirror the Go panics; the
func-upgrade branch keeps the old type on the value, the declared type and
the FuncValue, and records the old value for revertToOld. -/
def Define2 (sb : StaticBlock) (isConst : Bool) (n : GName) (st : Option Ty)
    (tv : TypedValue) : Option StaticBlock :=
  if n.length = 0 then none
  else if sb.NumNames ≠ sb.Names.length then none
  else if sb.NumNames = 65535 then none
  else if tv.T = none ∧ tv.V ≠ none then none
  else if n = blankIdentifier then some sb
  else
    match getLocalIndex sb.Names n with
    | some idx =>
        if isConst ≠ sb.Consts.contains n then none
        else
          match sb.Values[idx]? with
          | none => none
          | some old =>
              if old.IsUndefined then writeSlot sb idx tv st
              else
                match tv.T with
                | none => writeSlot sb idx tv st
                | some t =>
                    if t.isFuncKind && t.isZeroFuncBase then
                      match tv.V with
                      | some (Val.funcVal _ fid) =>
                          match writeSlot sb idx
                              { T := old.T, V := some (Val.funcVal old.T fid) } old.T with
                          | some sb2 =>
                              some { sb2 with
                                oldValues := sb.oldValues ++ [(idx, old.V)] }
                          | none => none
                      | _ => none
                    else
                      match old.T with
                      | none => none
                      | some ot =>
                          if t.typeId ≠ ot.typeId then none
                          else if tv.V ≠ old.V then none
                          else writeSlot sb idx tv st
    | none =>
        some { sb with
          Names := sb.Names ++ [n],
          HeapItems := sb.HeapItems ++ [false],
          Consts := if isConst then sb.Consts ++ [n] else sb.Consts,
          NumNames := sb.NumNames + 1,
          Values := sb.Values ++ [tv],
          Types := sb.Types ++ [st] }

def Define (sb : StaticBlock) (n : GName) (tv : TypedValue) : Option StaticBlock :=
  Define2 sb false n tv.T tv

/-- StaticBlock.Predefine: reserve the name with an unset type unless it
already has a slot.  anyValue(nil) is the zero TypedValue. -/
def Predefine (sb : StaticBlock) (isConst : Bool) (n : GName) : Option StaticBlock :=
  match getLocalIndex sb.Names n with
  | some _ => some sb
  | none => Define2 sb isConst n none { T := none, V := none }

-- ----------------------------------------
-- Body.IsCrossing

/-- Expressions, reduced to the constructors the crossing predicates
distinguish; callExpr keeps the function expression and arguments, other
scalar CallExpr fields are irrelevant to the sampled methods. -/
inductive Expr where
  | nameExpr (n : GName)
  | constExpr (source : Expr)
  | callExpr (fn : Expr) (args : List Expr)
  | otherExpr (id : Nat)

/-- Statements, reduced to ExprStmt versus everything else. -/
inductive Stmt where
  | exprStmt (x : Expr)
  | otherStmt (id : Nat)

/-- unwrapConstExpr: if x is a ConstExpr return its source. -/
def unwrapConstExpr : Expr → Expr
  | .constExpr s => s
  | x => x

/-- CallExpr.isCrossing on a nullable receiver: the nil receiver produced by
the ignored type assertion in Body.isCrossing is none and yields false. -/
def callIsCrossing : Option Expr → Bool
  | none => false
  | some e =>
      match e with
      | .callExpr f _ =>
          match unwrapConstExpr f with
          | .nameExpr nm => nm = "crossing"
          | _ => false
      | _ => false

/-- The type assertion xs.X.(*CallExpr) with the ok result ignored: a
non-call becomes the nil CallExpr. -/
def asCallExpr : Expr → Option Expr
  | .callExpr f args => some (.callExpr f args)
  | _ => none

/-- Body.isCrossing (and Body.IsCrossing which forwards to it). -/
def bodyIsCrossing (ss : List Stmt) : Bool :=
  match ss with
  | [] => false
  | fs :: _ =>
      match fs with
      | .exprStmt x => callIsCrossing (asCallExpr x)
      | _ => false

def BodyIsCrossing (ss : List Stmt) : Bool := bodyIsCrossing ss

-- ----------------------------------------
-- Package name validation and ReadMemPackageFromList

def lowerAZ (c : Char) : Bool := 'a' ≤ c && c ≤ 'z'

def digit09 (c : Char) : Bool := '0' ≤ c && c ≤ '9'

def pkgChar (c : Char) : Bool := lowerAZ c || digit09 c || c = '_'

/-- Anchored match of the regular expression of rePkgName: one lowercase
letter followed by one or more of lowercase letter, digit or underscore. -/
def rePkgNameMatches (s : String) : Bool :=
  match s.data with
  | [] => false
  | c :: rest => lowerAZ c && !rest.isEmpty && rest.all pkgChar

/-- validatePkgName: true models a nil error. -/
def validatePkgName (s : String) : Bool := rePkgNameMatches s

/-- The package-name rule in the words of the spec (and of the claim):
starts with a lowercase letter and every remaining character is a lowercase
letter, digit, or underscore.  Kept separate from validatePkgName so the two
can be compared. -/
def specPkgNameRule (s : String) : Bool :=
  match s.data with
  | [] => false
  | c :: rest => lowerAZ c && rest.all pkgChar

/-- Character-level versions of Go strings.HasSuffix and of the suffix strip
within ReadMemPackageFromList, kept kernel-computable. -/
def strEndsWith (s t : String) : Bool := t.data.isSuffixOf s.data

def strDropRight (s : String) (k : Nat) : String :=
  { data := s.data.take (s.data.length - k) }

structure MemFile where
  name : String
  body : String
deriving DecidableEq

structure MemPackage where
  path : String
  pkgName : String
  files : List MemFile
deriving DecidableEq

/-- Modelled from the spec: gnovm MemPackage.IsEmpty is outside the sampled
file; a package with no files at all does not exist. -/
def MemPackage.IsEmpty (m : MemPackage) : Bool := m.files.isEmpty

/-- The file loop of ReadMemPackageFromList: the package name is taken from
the first gno file whose parse yields a name (stripping a _test suffix), and
every listed file is stored.  parse stands for the external
PackageNameFromFileBody collaborator (the Go parser); none is a parse
error.  File names arrive already reduced to their base names and file
contents are given directly, in place of os.ReadFile. -/
def readMemLoop (parse : String → String → Option String) :
    List MemFile → String → List MemFile → Option (String × List MemFile)
  | [], pkgName, acc => some (pkgName, acc)
  | f :: rest, pkgName, acc =>
      if pkgName = "" ∧ strEndsWith f.name ".gno" then
        match parse f.name f.body with
        | none => none
        | some pn =>
            readMemLoop parse rest
              (if strEndsWith pn "_test" then strDropRight pn 5 else pn) (acc ++ [f])
      else readMemLoop parse rest pkgName (acc ++ [f])

def ReadMemPackageFromList (parse : String → String → Option String)
    (list : List MemFile) (pkgPath : String) : Option MemPackage :=
  match readMemLoop parse list "" [] with
  | none => none
  | some (pkgName, files) =>
      if MemPackage.IsEmpty { path := pkgPath, pkgName := pkgName, files := files } = false then
        if validatePkgName pkgName then
          some { path := pkgPath, pkgName := pkgName, files := files }
        else none
      else some { path := pkgPath, pkgName := pkgName, files := files }

-- ----------------------------------------
-- Chain well-formedness and search helpers

/-- Index of the first block of the chain declaring n, mirroring the order
GetPathForName searches. -/
def firstBlockIdx (bs : List StaticBlock) (n : GName) : Option Nat :=
  match bs with
  | [] => none
  | b :: rest =>
      if (getLocalIndex b.Names n).isSome then some 0
      else (firstBlockIdx rest n).map (· + 1)

/-- Number of faux child blocks in a chain segment. -/
def countFaux (bs : List StaticBlock) : Nat :=
  bs.countP (fun b => b.isFauxChild)

/-- Structural well-formedness of an initialized chain, as established by
the preprocessor (outside the sampled file): NumNames agrees with the name
list, and a faux child block (IfCaseStmt / SwitchClauseStmt) is immediately
followed by its faux parent (IfStmt / SwitchStmt), which is not itself a
faux child and whose names were copied in front of the names of the faux
child. -/
def wfChain : List StaticBlock → Bool
  | [] => true
  | b :: rest =>
      (b.NumNames == b.Names.length) &&
      (if b.isFauxChild then
        match rest with
        | [] => false
        | p :: _ => !p.isFauxChild && p.Names.isPrefixOf b.Names
      else true) &&
      wfChain rest

/-- A single symbol-table operation, used to state properties over
arbitrary sequences of Define2 and Predefine calls. -/
inductive BlockOp where
  | def2 (isConst : Bool) (n : GName) (st : Option Ty) (tv : TypedValue)
  | predef (isConst : Bool) (n : GName)
deriving DecidableEq

def applyOp (sb : StaticBlock) : BlockOp → Option StaticBlock
  | .def2 isConst n st tv => Define2 sb isConst n st tv
  | .predef isConst n => Predefine sb isConst n

/-- Run a sequence of Define2 / Predefine calls, failing if any call
panics. -/
def applyOps (sb : StaticBlock) : List BlockOp → Option StaticBlock
  | [] => some sb
  | op :: ops =>
      match applyOp sb op with
      | some sb2 => applyOps sb2 ops
      | none => none

-- ----------------------------------------
-- Concrete instances used by witnesses and counterexamples

/-- A plain block with the given names, no declared types or values. -/
def plainBlock (ns : List GName) (file faux : Bool) : StaticBlock :=
  { Names := ns, Types := ns.map (fun _ => none),
    Values := ns.map (fun _ => { T := none, V := none }),
    Consts := [], HeapItems := ns.map (fun _ => false), Externs := [],
    NumNames := ns.length, oldValues := [], isFileNode := file, isFauxChild := faux }

/-- A tiny universal scope. -/
def uvW : StaticBlock := plainBlock ["len", "cap"] false false

def fileBlockW : StaticBlock := plainBlock [] true false
def defBlockW : StaticBlock := plainBlock ["x"] false false
def midBlockW : StaticBlock := plainBlock ["y"] false false
def icsBlockW : StaticBlock := plainBlock ["a", "z"] false true
def ifsBlockW : StaticBlock := plainBlock ["a"] false false

def tyOneW : Ty := Ty.base 1

/-- A block with one fully defined name x of type tyOneW. -/
def sbDefW : StaticBlock :=
  { Names := ["x"], Types := [some tyOneW],
    Values := [{ T := some tyOneW, V := some (Val.otherVal 0) }],
    Consts := [], HeapItems := [false], Externs := [], NumNames := 1,
    oldValues := [], isFileNode := false, isFauxChild := false }

/-- A parse stub standing for the external Go parser in witnesses. -/
def parseW (fname body : String) : Option String :=
  if fname = "" ∧ body = "" then none else some "abc"

def memFileW : MemFile := { name := "a.gno", body := "package abc" }

/-- A package as produced by ReadMemPackageFromList in the witness. -/
def pkgW : MemPackage := { path := "p", pkgName := "abc", files := [memFileW] }

/-- A sample TypedValue for witnesses. -/
def tvW : TypedValue := { T := some (Ty.base 5), V := none }

/-- The block sbDefW after defining y and predefining z. -/
def sbSeqW : StaticBlock :=
  { Names := ["x", "y", "z"],
    Types := [some tyOneW, some (Ty.base 5), none],
    Values := [{ T := some tyOneW, V := some (Val.otherVal 0) }, tvW,
      { T := none, V := none }],
    Consts := [], HeapItems := [false, false, false], Externs := [],
    NumNames := 3, oldValues := [], isFileNode := false, isFauxChild := false }

def vpOneW : ValuePath :=
  { Vtype := VPType.VPBlock, Depth := 1, Index := 0, Name := "x" }

def pathTwoW : ValuePath :=
  { Vtype := VPType.VPBlock, Depth := 2, Index := 0, Name := "x" }

-- ----------------------------------------
-- Helper lemmas

theorem addExternName_Names (sb : StaticBlock) (n : GName) :
    (sb.addExternName n).Names = sb.Names := by
  unfold StaticBlock.addExternName
  split <;> rfl

theorem addExternName_isFileNode (sb : StaticBlock) (n : GName) :
    (sb.addExternName n).isFileNode = sb.isFileNode := by
  unfold StaticBlock.addExternName
  split <;> rfl

theorem addExternName_isFauxChild (sb : StaticBlock) (n : GName) :
    (sb.addExternName n).isFauxChild = sb.isFauxChild := by
  unfold StaticBlock.addExternName
  split <;> rfl

theorem addExternName_NumNames (sb : StaticBlock) (n : GName) :
    (sb.addExternName n).NumNames = sb.NumNames := by
  unfold StaticBlock.addExternName
  split <;> rfl

theorem addExternName_mem (sb : StaticBlock) (n : GName) :
    n ∈ (sb.addExternName n).Externs := by
  unfold StaticBlock.addExternName
  split
  · assumption
  · simp

theorem addExternName_of_mem {sb : StaticBlock} {n : GName}
    (h : n ∈ sb.Externs) : sb.addExternName n = sb := by
  unfold StaticBlock.addExternName
  rw [if_pos h]

theorem addExternName_idem (sb : StaticBlock) (n : GName) :
    (sb.addExternName n).addExternName n = sb.addExternName n :=
  addExternName_of_mem (addExternName_mem sb n)

theorem updExt_Names (n : GName) (sb : StaticBlock) :
    (updExt n sb).Names = sb.Names := by
  unfold updExt
  split
  · rfl
  · exact addExternName_Names sb n

theorem updExt_isFileNode (n : GName) (sb : StaticBlock) :
    (updExt n sb).isFileNode = sb.isFileNode := by
  unfold updExt
  split
  · rfl
  · exact addExternName_isFileNode sb n

theorem updExt_isFauxChild (n : GName) (sb : StaticBlock) :
    (updExt n sb).isFauxChild = sb.isFauxChild := by
  unfold updExt
  split
  · rfl
  · exact addExternName_isFauxChild sb n

theorem updExt_NumNames (n : GName) (sb : StaticBlock) :
    (updExt n sb).NumNames = sb.NumNames := by
  unfold updExt
  split
  · rfl
  · exact addExternName_NumNames sb n

theorem updExt_idem (n : GName) (sb : StaticBlock) :
    updExt n (updExt n sb) = updExt n sb := by
  unfold updExt
  split
  · simp_all
  · rw [addExternName_isFileNode]
    split
    · simp_all
    · exact addExternName_idem sb n

theorem updExt_mem_of_not_file (n : GName) (sb : StaticBlock)
    (h : sb.isFileNode = false) : n ∈ (updExt n sb).Externs := by
  unfold updExt
  rw [h]
  simpa using addExternName_mem sb n

theorem updExt_of_file (n : GName) (sb : StaticBlock)
    (h : sb.isFileNode = true) : updExt n sb = sb := by
  unfold updExt
  rw [h]
  simp

theorem getLocalIndex_lt_length {ns : List GName} {n : GName} {i : Nat}
    (h : getLocalIndex ns n = some i) : i < ns.length := by
  induction ns generalizing i with
  | nil => simp [getLocalIndex] at h
  | cons m rest ih =>
      simp only [getLocalIndex] at h
      split at h
      · simp at h
        simp
        omega
      · match hr : getLocalIndex rest n with
        | none => rw [hr] at h; simp at h
        | some j =>
            rw [hr] at h
            simp at h
            have := ih hr
            simp
            omega

theorem getLocalIndex_append {ns ts : List GName} {n : GName} {i : Nat}
    (h : getLocalIndex ns n = some i) : getLocalIndex (ns ++ ts) n = some i := by
  induction ns generalizing i with
  | nil => simp [getLocalIndex] at h
  | cons m rest ih =>
      simp only [getLocalIndex, List.cons_append, List.append_eq] at h ⊢
      split at h
      · split
        · exact h
        · simp_all
      · split
        · simp_all
        · match hr : getLocalIndex rest n with
          | none => rw [hr] at h; simp at h
          | some j =>
              rw [hr] at h
              rw [ih hr]
              exact h

theorem getLocalIndex_of_append_lt {xs ys : List GName} {n : GName} {i : Nat}
    (h : getLocalIndex (xs ++ ys) n = some i) (hi : i < xs.length) :
    getLocalIndex xs n = some i := by
  induction xs generalizing i with
  | nil => simp at hi
  | cons m rest ih =>
      simp only [getLocalIndex, List.cons_append, List.append_eq] at h ⊢
      split at h
      · split
        · exact h
        · simp_all
      · split
        · simp_all
        · match hr : getLocalIndex (rest ++ ys) n with
          | none => rw [hr] at h; simp at h
          | some j =>
              rw [hr] at h
              simp at h
              simp at hi
              have hji : j + 1 = i := h
              have := ih hr (by omega)
              rw [this]
              simp
              omega

theorem writeSlot_Names {sb sb2 : StaticBlock} {idx : Nat} {tv : TypedValue}
    {st : Option Ty} (h : writeSlot sb idx tv st = some sb2) :
    sb2.Names = sb.Names := by
  unfold writeSlot at h
  split at h
  · simp at h
    subst h
    rfl
  · simp at h

set_option maxHeartbeats 1600000 in
/-- Every successful Define2 leaves the existing name list as a prefix:
either the slot is reused in place, or the new name is appended. -/
theorem define2_names_extend {sb sb2 : StaticBlock} {isConst : Bool} {n : GName}
    {st : Option Ty} {tv : TypedValue}
    (h : Define2 sb isConst n st tv = some sb2) :
    sb2.Names = sb.Names ∨ sb2.Names = sb.Names ++ [n] := by
  unfold Define2 at h
  split at h
  · simp at h
  split at h
  · simp at h
  split at h
  · simp at h
  split at h
  · simp at h
  split at h
  · simp at h
    subst h
    exact Or.inl rfl
  split at h
  · rename_i idx heq
    split at h
    · simp at h
    split at h
    · simp at h
    · rename_i old hold
      split at h
      · exact Or.inl (writeSlot_Names h)
      · split at h
        · exact Or.inl (writeSlot_Names h)
        · rename_i t ht
          split at h
          · split at h
            · rename_i vty fid hv
              split at h
              · rename_i sb3 hw
                simp at h
                subst h
                have hnm := writeSlot_Names hw
                exact Or.inl hnm
              · simp at h
            · simp at h
          · split at h
            · simp at h
            · rename_i ot hot
              split at h
              · simp at h
              split at h
              · simp at h
              exact Or.inl (writeSlot_Names h)
  · rename_i heq
    simp at h
    subst h
    exact Or.inr rfl

theorem predefine_names_extend {sb sb2 : StaticBlock} {isConst : Bool} {n : GName}
    (h : Predefine sb isConst n = some sb2) :
    sb2.Names = sb.Names ∨ sb2.Names = sb.Names ++ [n] := by
  unfold Predefine at h
  split at h
  · simp at h
    subst h
    exact Or.inl rfl
  · exact define2_names_extend h

theorem getLocalIndex_eq_none_iff {ns : List GName} {n : GName} :
    getLocalIndex ns n = none ↔ n ∉ ns := by
  induction ns with
  | nil => simp [getLocalIndex]
  | cons m rest ih =>
      unfold getLocalIndex
      constructor
      · intro h
        split at h
        · simp at h
        · intro hmem
          rcases List.mem_cons.mp hmem with h1 | h2
          · simp_all
          · have : getLocalIndex rest n = none := by
              match hr : getLocalIndex rest n with
              | none => rfl
              | some j => rw [hr] at h; simp at h
            exact (ih.mp this) h2
      · intro h
        have hm : ¬(m = n) := by
          intro he
          exact h (by simp [he])
        rw [if_neg hm]
        have : n ∉ rest := fun hr => h (List.mem_cons_of_mem m hr)
        rw [ih.mpr this]
        rfl

-- ----------------------------------------
-- Claim C10

/-- C10: Predefine on a name that already has a local slot is a complete
no-op: the block is returned entirely unchanged and the call never fails,
whatever the isConst argument is.  Consequently Predefine is idempotent. -/
theorem predefine_existing_noop (sb : StaticBlock) (isConst : Bool) (n : GName)
    (i : Nat) (h : sb.GetLocalIndex n = some i) :
    Predefine sb isConst n = some sb := by
  unfold Predefine
  unfold StaticBlock.GetLocalIndex at h
  rw [h]

/-- Witness for C10 at a concrete block, with a const flag differing from
the existing non-const binding. -/
theorem predefine_existing_noop_witness :
    Predefine sbDefW true "x" = some sbDefW :=
  predefine_existing_noop sbDefW true "x" 0 (by decide)

-- ----------------------------------------
-- Claim C4

/-- C4: slot indices are stable.  Across any sequence of successful Define2
and Predefine calls, names are only ever appended after the existing ones,
so once a name has a local slot index, GetLocalIndex keeps returning that
same index afterwards. -/
theorem slot_index_stable (sb sb2 : StaticBlock) (ops : List BlockOp)
    (h : applyOps sb ops = some sb2) :
    (∃ t, sb2.Names = sb.Names ++ t) ∧
    (∀ n i, sb.GetLocalIndex n = some i → sb2.GetLocalIndex n = some i) := by
  induction ops generalizing sb with
  | nil =>
      simp [applyOps] at h
      subst h
      exact ⟨⟨[], by simp⟩, fun n i hi => hi⟩
  | cons op ops ih =>
      unfold applyOps at h
      split at h
      · rename_i sb3 hstep
        obtain ⟨⟨t2, ht2⟩, hidx⟩ := ih sb3 h
        have hext : ∃ t1, sb3.Names = sb.Names ++ t1 := by
          cases op with
          | def2 c m st tv =>
              rcases define2_names_extend hstep with hh | hh
              · exact ⟨[], by simp [hh]⟩
              · exact ⟨[m], hh⟩
          | predef c m =>
              rcases predefine_names_extend hstep with hh | hh
              · exact ⟨[], by simp [hh]⟩
              · exact ⟨[m], hh⟩
        obtain ⟨t1, ht1⟩ := hext
        refine ⟨⟨t1 ++ t2, by rw [ht2, ht1, List.append_assoc]⟩, ?_⟩
        intro n i hi
        apply hidx
        unfold StaticBlock.GetLocalIndex at hi ⊢
        rw [ht1]
        exact getLocalIndex_append hi
      · simp at h

/-- Witness for C4: defining a fresh name y then predefining z keeps the
index of x. -/
theorem slot_index_stable_witness :
    applyOps sbDefW
      [BlockOp.def2 false "y" (some (Ty.base 5)) tvW,
        BlockOp.predef false "z"] = some sbSeqW ∧
    sbSeqW.GetLocalIndex "x" = some 0 := by
  have hd : applyOps sbDefW
      [BlockOp.def2 false "y" (some (Ty.base 5)) tvW,
        BlockOp.predef false "z"] = some sbSeqW := by decide
  exact ⟨hd, (slot_index_stable sbDefW sbSeqW _ hd).2 "x" 0 (by decide)⟩

-- ----------------------------------------
-- Claim C6

/-- C6: Body.IsCrossing is true exactly when the body is non-empty and its
first statement is an expression statement whose expression is a call whose
function expression, after unwrapping a constant expression, is the name
crossing; empty bodies, other first statements and non-call first
expressions give false without failing. -/
theorem body_isCrossing_iff (ss : List Stmt) :
    BodyIsCrossing ss = true ↔
      ∃ f args rest, ss = Stmt.exprStmt (Expr.callExpr f args) :: rest ∧
        unwrapConstExpr f = Expr.nameExpr "crossing" := by
  constructor
  · intro h
    unfold BodyIsCrossing bodyIsCrossing at h
    match ss with
    | [] => simp at h
    | Stmt.otherStmt k :: rest => simp at h
    | Stmt.exprStmt x :: rest =>
        match x with
        | Expr.nameExpr m => simp [asCallExpr, callIsCrossing] at h
        | Expr.constExpr s => simp [asCallExpr, callIsCrossing] at h
        | Expr.otherExpr k => simp [asCallExpr, callIsCrossing] at h
        | Expr.callExpr f args =>
            refine ⟨f, args, rest, rfl, ?_⟩
            simp only [asCallExpr, callIsCrossing] at h
            match hu : unwrapConstExpr f with
            | Expr.nameExpr m =>
                rw [hu] at h
                have : m = "crossing" := by
                  simpa using h
                rw [this]
            | Expr.constExpr s => rw [hu] at h; simp at h
            | Expr.callExpr g as => rw [hu] at h; simp at h
            | Expr.otherExpr k => rw [hu] at h; simp at h
  · rintro ⟨f, args, rest, rfl, hf⟩
    simp [BodyIsCrossing, bodyIsCrossing, asCallExpr, callIsCrossing, hf]

-- ----------------------------------------
-- Claim C2

/-- C2 counterexample: the claim says a second Define2 with an identical
declared type succeeds, but with the same declared type the call is a fatal
conflict both when the value differs (cannot change .V) and when the const
status differs (cannot change const status). -/
theorem define2_same_type_value_change_cex :
    Define2 sbDefW false "x" (some tyOneW)
      { T := some tyOneW, V := some (Val.otherVal 1) } = none ∧
    Define2 sbDefW true "x" (some tyOneW)
      { T := some tyOneW, V := some (Val.otherVal 0) } = none := by
  exact ⟨by decide, by decide⟩

set_option maxHeartbeats 1600000 in
/-- C2 amended: on a name already defined with a non-undefined value, a
second Define2 aborts whenever the const status differs from the existing
binding; with the const status unchanged, a new type with the same TypeID
succeeds in place when the value is also unchanged, and aborts when the
value differs; a TypeID change outside the func-upgrade form is a hard
conflict that aborts; the func-upgrade form (new value of func kind with a
zero function type) is accepted and keeps the old type. -/
theorem define2_redefinition_rules
    (sb : StaticBlock) (isConst : Bool) (n : GName) (st : Option Ty)
    (tv : TypedValue) (idx : Nat) (old : TypedValue) (t ot : Ty)
    (hn0 : ¬n.length = 0)
    (hnum : sb.NumNames = sb.Names.length)
    (hcap : ¬sb.NumNames = 65535)
    (hnb : ¬n = blankIdentifier)
    (hidx : getLocalIndex sb.Names n = some idx)
    (hold : sb.Values[idx]? = some old)
    (hundef : old.IsUndefined = false)
    (htv : tv.T = some t)
    (hot : old.T = some ot)
    (hvlen : idx < sb.Values.length) (htlen : idx < sb.Types.length) :
    (¬isConst = sb.Consts.contains n →
      Define2 sb isConst n st tv = none) ∧
    (isConst = sb.Consts.contains n →
      (t.isFuncKind && t.isZeroFuncBase) = false → t.typeId = ot.typeId →
      tv.V = old.V →
      Define2 sb isConst n st tv =
        some { sb with Values := sb.Values.set idx tv,
                       Types := sb.Types.set idx st }) ∧
    (isConst = sb.Consts.contains n →
      (t.isFuncKind && t.isZeroFuncBase) = false → ¬t.typeId = ot.typeId →
      Define2 sb isConst n st tv = none) ∧
    (isConst = sb.Consts.contains n →
      (t.isFuncKind && t.isZeroFuncBase) = false → t.typeId = ot.typeId →
      ¬tv.V = old.V →
      Define2 sb isConst n st tv = none) ∧
    (∀ vty fid, isConst = sb.Consts.contains n →
      (t.isFuncKind && t.isZeroFuncBase) = true →
      tv.V = some (Val.funcVal vty fid) →
      Define2 sb isConst n st tv =
        some { sb with
          Values := sb.Values.set idx
            { T := old.T, V := some (Val.funcVal old.T fid) },
          Types := sb.Types.set idx old.T,
          oldValues := sb.oldValues ++ [(idx, old.V)] }) := by
  refine ⟨?_, ?_, ?_, ?_, ?_⟩
  · intro hcne
    simp only [Define2, hn0, hnum, hcap, hnb, hidx, htv]
    simp
    intro _ hc
    exact absurd hc (by simpa using hcne)
  · intro hconst hz hteq hveq
    simp only [Define2, writeSlot, hn0, hnum, hcap, hnb, hidx, hconst, hold,
      hundef, htv, hot, hz, hteq, hveq]
    simp [htv, hvlen, htlen, hnum]
    omega
  · intro hconst hz htne
    simp only [Define2, writeSlot, hn0, hnum, hcap, hnb, hidx, hconst, hold,
      hundef, htv, hot, hz]
    simp [htv, htne, hnum]
  · intro hconst hz hteq hvne
    simp only [Define2, writeSlot, hn0, hnum, hcap, hnb, hidx, hconst, hold,
      hundef, htv, hot, hz, hteq]
    simp [htv, hvne, hnum]
  · intro vty fid hconst hz hveq
    simp only [Define2, writeSlot, hn0, hnum, hcap, hnb, hidx, hconst, hold,
      hundef, htv, hz, hveq]
    simp [htv, hvlen, htlen, hnum]
    omega

/-- Witness for C2 at concrete inputs: a const-status abort, an in-place
same-type same-value redefinition, a TypeID conflict, a value-change abort,
and a func upgrade. -/
theorem define2_redefinition_rules_witness :
    (Define2 sbDefW true "x" (some tyOneW)
        { T := some tyOneW, V := none } = none) ∧
    (Define2 sbDefW false "x" (some tyOneW)
        { T := some tyOneW, V := some (Val.otherVal 0) } =
      some { sbDefW with
        Values := sbDefW.Values.set 0 { T := some tyOneW, V := some (Val.otherVal 0) },
        Types := sbDefW.Types.set 0 (some tyOneW) }) ∧
    (Define2 sbDefW false "x" (some (Ty.base 2))
        { T := some (Ty.base 2), V := some (Val.otherVal 0) } = none) ∧
    (Define2 sbDefW false "x" (some tyOneW)
        { T := some tyOneW, V := some (Val.otherVal 2) } = none) ∧
    (Define2 sbDefW false "x" (some (Ty.fn true 7))
        { T := some (Ty.fn true 7), V := some (Val.funcVal (some (Ty.fn true 7)) 3) } =
      some { sbDefW with
        Values := sbDefW.Values.set 0
          { T := some tyOneW, V := some (Val.funcVal (some tyOneW) 3) },
        Types := sbDefW.Types.set 0 (some tyOneW),
        oldValues := sbDefW.oldValues ++ [(0, some (Val.otherVal 0))] }) := by
  refine ⟨?_, ?_, ?_, ?_, ?_⟩
  · exact (define2_redefinition_rules sbDefW true "x" (some tyOneW)
      { T := some tyOneW, V := none } 0
      { T := some tyOneW, V := some (Val.otherVal 0) } tyOneW tyOneW
      (by decide) (by decide) (by decide) (by decide) (by decide) (by decide)
      (by decide) (by decide) (by decide) (by decide) (by decide)).1
      (by decide)
  · exact (define2_redefinition_rules sbDefW false "x" (some tyOneW)
      { T := some tyOneW, V := some (Val.otherVal 0) } 0
      { T := some tyOneW, V := some (Val.otherVal 0) } tyOneW tyOneW
      (by decide) (by decide) (by decide) (by decide) (by decide) (by decide)
      (by decide) (by decide) (by decide) (by decide) (by decide)).2.1
      (by decide) (by decide) (by decide) (by decide)
  · exact (define2_redefinition_rules sbDefW false "x" (some (Ty.base 2))
      { T := some (Ty.base 2), V := some (Val.otherVal 0) } 0
      { T := some tyOneW, V := some (Val.otherVal 0) } (Ty.base 2) tyOneW
      (by decide) (by decide) (by decide) (by decide) (by decide) (by decide)
      (by decide) (by decide) (by decide) (by decide) (by decide)).2.2.1
      (by decide) (by decide) (by decide)
  · exact (define2_redefinition_rules sbDefW false "x" (some tyOneW)
      { T := some tyOneW, V := some (Val.otherVal 2) } 0
      { T := some tyOneW, V := some (Val.otherVal 0) } tyOneW tyOneW
      (by decide) (by decide) (by decide) (by decide) (by decide) (by decide)
      (by decide) (by decide) (by decide) (by decide) (by decide)).2.2.2.1
      (by decide) (by decide) (by decide) (by decide)
  · exact (define2_redefinition_rules sbDefW false "x" (some (Ty.fn true 7))
      { T := some (Ty.fn true 7), V := some (Val.funcVal (some (Ty.fn true 7)) 3) } 0
      { T := some tyOneW, V := some (Val.otherVal 0) } (Ty.fn true 7) tyOneW
      (by decide) (by decide) (by decide) (by decide) (by decide) (by decide)
      (by decide) (by decide) (by decide) (by decide) (by decide)).2.2.2.2
      (some (Ty.fn true 7)) 3 (by decide) (by decide) (by decide)

-- ----------------------------------------
-- Resolution loop lemmas

theorem gpfnLoop_idem (uv : StaticBlock) (n : GName) :
    ∀ (rest : List StaticBlock) (gen faux : Nat) (p : ValuePath)
      (rest2 : List StaticBlock),
      gpfnLoop uv n rest gen faux = some (p, rest2) →
      gpfnLoop uv n rest2 gen faux = some (p, rest2) := by
  intro rest
  induction rest with
  | nil =>
      intro gen faux p rest2 h
      unfold gpfnLoop at h
      split at h
      · rename_i idx hidx
        split at h
        · rename_i vp hvp
          simp at h
          obtain ⟨hp, hr⟩ := h
          subst hp
          subst hr
          unfold gpfnLoop
          simp only [hidx, hvp]
        · simp at h
      · simp at h
  | cons sn rest ih =>
      intro gen faux p rest2 h
      unfold gpfnLoop at h
      split at h
      · rename_i idx hidx
        split at h
        · simp at h
        · rename_i hlt
          split at h
          · rename_i vp hvp
            simp at h
            obtain ⟨hp, hr⟩ := h
            subst hp
            subst hr
            unfold gpfnLoop
            simp only [hidx, if_neg hlt, hvp]
          · simp at h
      · rename_i hmiss
        split at h
        · rename_i vp rest3 hrec
          simp at h
          obtain ⟨hp, hr⟩ := h
          subst hp
          subst hr
          unfold gpfnLoop
          simp only [updExt_Names, updExt_isFauxChild, hmiss,
            ih _ _ _ _ hrec, updExt_idem]
        · simp at h

theorem gpfnLoop_none (uv : StaticBlock) (n : GName) :
    ∀ (rest : List StaticBlock) (gen faux : Nat),
      (∀ b ∈ rest, n ∉ b.Names) → n ∉ uv.Names →
      gpfnLoop uv n rest gen faux = none := by
  intro rest
  induction rest with
  | nil =>
      intro gen faux _ huv
      unfold gpfnLoop
      rw [getLocalIndex_eq_none_iff.mpr huv]
  | cons sn rest ih =>
      intro gen faux hall huv
      unfold gpfnLoop
      rw [getLocalIndex_eq_none_iff.mpr (hall sn (by simp))]
      rw [ih _ _ (fun b hb => hall b (by simp [hb])) huv]

theorem newValuePath_depth {t : VPType} {d i : Nat} {nm : GName} {vp : ValuePath}
    (h : NewValuePath t d i nm = some vp) : vp.Depth ≤ 127 := by
  unfold NewValuePath at h
  split at h
  · rename_i hval
    simp at h
    subst h
    simp [ValuePath.validate, ValuePath.validateDepth, MaxValuePathDepth] at hval
    exact hval.1
  · simp at h

theorem gpfnLoop_depth (uv : StaticBlock) (n : GName) :
    ∀ (rest : List StaticBlock) (gen faux : Nat) (p : ValuePath)
      (rest2 : List StaticBlock),
      gpfnLoop uv n rest gen faux = some (p, rest2) → p.Depth ≤ 127 := by
  intro rest
  induction rest with
  | nil =>
      intro gen faux p rest2 h
      unfold gpfnLoop at h
      split at h
      · rename_i idx hidx
        split at h
        · rename_i vp hvp
          simp at h
          obtain ⟨hp, hr⟩ := h
          subst hp
          exact newValuePath_depth hvp
        · simp at h
      · simp at h
  | cons sn rest ih =>
      intro gen faux p rest2 h
      unfold gpfnLoop at h
      split at h
      · rename_i idx hidx
        split at h
        · simp at h
        · split at h
          · rename_i vp hvp
            simp at h
            obtain ⟨hp, hr⟩ := h
            subst hp
            exact newValuePath_depth hvp
          · simp at h
      · split at h
        · rename_i vp rest3 hrec
          simp at h
          obtain ⟨hp, hr⟩ := h
          subst hp
          exact ih _ _ _ _ hrec
        · simp at h

-- ----------------------------------------
-- Claim C1

/-- C1: resolution is idempotent.  If GetPathForName resolves n to a path p
while updating the chain to chain2, then resolving n again on chain2 yields
the same path p and leaves the chain (in particular every extern list)
unchanged, because addExternName does not append a name already present. -/
theorem getPathForName_idempotent (chain chain2 : List StaticBlock)
    (uv : StaticBlock) (n : GName) (p : ValuePath)
    (h : GetPathForName chain uv n = some (p, chain2)) :
    GetPathForName chain2 uv n = some (p, chain2) := by
  cases chain with
  | nil => simp [GetPathForName] at h
  | cons sb rest =>
      rw [GetPathForName] at h
      by_cases hb : n = blankIdentifier
      · rw [if_pos hb] at h
        have hnew : NewValuePathBlock 0 0 blankIdentifier =
            some { Vtype := VPType.VPBlock, Depth := 0, Index := 0,
                   Name := blankIdentifier } := by decide
        rw [hnew] at h
        simp at h
        obtain ⟨hp, hr⟩ := h
        subst hp
        subst hr
        rw [GetPathForName]
        rw [if_pos hb, hnew]
      · rw [if_neg hb] at h
        split at h
        · rename_i idx hidx
          split at h
          · rename_i vp hvp
            simp at h
            obtain ⟨hp, hr⟩ := h
            subst hp
            subst hr
            rw [GetPathForName]
            rw [if_neg hb]
            simp only [hidx, hvp]
          · simp at h
        · rename_i hmiss
          split at h
          · rename_i vp rest3 hrec
            simp at h
            obtain ⟨hp, hr⟩ := h
            subst hp
            subst hr
            rw [GetPathForName]
            rw [if_neg hb]
            simp only [updExt_Names, updExt_isFauxChild, hmiss,
              gpfnLoop_idem uv n rest _ _ _ _ hrec, updExt_idem]
          · simp at h

/-- Witness for C1 at a concrete two-block chain. -/
theorem getPathForName_idempotent_witness :
    GetPathForName [{ midBlockW with Externs := ["x"] }, defBlockW] uvW "x" =
      some ({ Vtype := VPType.VPBlock, Depth := 2, Index := 0, Name := "x" },
        [{ midBlockW with Externs := ["x"] }, defBlockW]) :=
  getPathForName_idempotent [midBlockW, defBlockW]
    [{ midBlockW with Externs := ["x"] }, defBlockW] uvW "x"
    { Vtype := VPType.VPBlock, Depth := 2, Index := 0, Name := "x" }
    (by decide)

-- ----------------------------------------
-- Claim C3

/-- C3: resolving a non-blank name with no declaration in the local scope,
any ancestor scope, or the universal scope always fails (a Go panic, modelled
as none) and never returns an address. -/
theorem getPathForName_undeclared_fails (chain : List StaticBlock)
    (uv : StaticBlock) (n : GName) (hnb : ¬n = blankIdentifier)
    (hchain : ∀ b ∈ chain, n ∉ b.Names) (huv : n ∉ uv.Names) :
    GetPathForName chain uv n = none := by
  cases chain with
  | nil => rfl
  | cons sb rest =>
      rw [GetPathForName]
      rw [if_neg hnb]
      simp only [getLocalIndex_eq_none_iff.mpr (hchain sb (by simp)),
        gpfnLoop_none uv n rest 2 (if sb.isFauxChild then 1 else 0)
          (fun b hb => hchain b (by simp [hb])) huv]

/-- Witness for C3 at a concrete chain and name. -/
theorem getPathForName_undeclared_fails_witness :
    GetPathForName [midBlockW, defBlockW] uvW "zz" = none :=
  getPathForName_undeclared_fails [midBlockW, defBlockW] uvW "zz"
    (by decide) (by decide) (by decide)

-- ----------------------------------------
-- Claim C7

/-- C7: every ValuePath constructed through NewValuePath (hence all its
variants) or through SetDepth has Depth at most 127; attempts to construct or
set a larger depth fail; and GetPathForName never returns a path of depth
greater than 127. -/
theorem valuePath_depth_bound (t : VPType) (d i : Nat) (nm : GName)
    (vp0 : ValuePath) (chain : List StaticBlock) (uv : StaticBlock)
    (n : GName) :
    (∀ vp, NewValuePath t d i nm = some vp → vp.Depth ≤ 127) ∧
    (127 < d → NewValuePath t d i nm = none) ∧
    (∀ vp2, ValuePath.SetDepth vp0 d = some vp2 → vp2.Depth ≤ 127) ∧
    (127 < d → ValuePath.SetDepth vp0 d = none) ∧
    (∀ p chain2, GetPathForName chain uv n = some (p, chain2) →
      p.Depth ≤ 127) := by
  refine ⟨?_, ?_, ?_, ?_, ?_⟩
  · intro vp h
    exact newValuePath_depth h
  · intro hd
    unfold NewValuePath
    have hval : ValuePath.validate
        { Vtype := t, Depth := d, Index := i, Name := nm } = false := by
      simp [ValuePath.validate, ValuePath.validateDepth, MaxValuePathDepth]
      intro habs
      omega
    rw [hval]
    rfl
  · intro vp2 h
    unfold ValuePath.SetDepth at h
    split at h
    · rename_i hval
      simp at h
      subst h
      simp [ValuePath.validateDepth, MaxValuePathDepth] at hval
      exact hval
    · simp at h
  · intro hd
    unfold ValuePath.SetDepth
    have hval : ValuePath.validateDepth { vp0 with Depth := d } = false := by
      simp [ValuePath.validateDepth, MaxValuePathDepth]
      omega
    rw [hval]
    rfl
  · intro p chain2 h
    cases chain with
    | nil => simp [GetPathForName] at h
    | cons sb rest =>
        rw [GetPathForName] at h
        split at h
        · split at h
          · rename_i vp hvp
            simp at h
            obtain ⟨hp, hr⟩ := h
            subst hp
            exact newValuePath_depth hvp
          · simp at h
        · split at h
          · rename_i idx hidx
            split at h
            · rename_i vp hvp
              simp at h
              obtain ⟨hp, hr⟩ := h
              subst hp
              exact newValuePath_depth hvp
            · simp at h
          · split at h
            · rename_i vp rest3 hrec
              simp at h
              obtain ⟨hp, hr⟩ := h
              subst hp
              exact gpfnLoop_depth uv n rest _ _ _ _ hrec
            · simp at h

/-- Witness for C7: a depth of 200 is rejected by construction and by
SetDepth, and a concrete resolution yields a small depth. -/
theorem valuePath_depth_bound_witness :
    NewValuePath VPType.VPBlock 200 0 "x" = none ∧
    ValuePath.SetDepth vpOneW 200 = none ∧
    pathTwoW.Depth ≤ 127 := by
  refine ⟨?_, ?_, ?_⟩
  · exact (valuePath_depth_bound VPType.VPBlock 200 0 "x" vpOneW
      [midBlockW, defBlockW] uvW "x").2.1 (by omega)
  · exact (valuePath_depth_bound VPType.VPBlock 200 0 "x" vpOneW
      [midBlockW, defBlockW] uvW "x").2.2.2.1 (by omega)
  · exact (valuePath_depth_bound VPType.VPBlock 200 0 "x" vpOneW
      [midBlockW, defBlockW] uvW "x").2.2.2.2 pathTwoW
      [{ midBlockW with Externs := ["x"] }, defBlockW] (by decide)

-- ----------------------------------------
-- Claim C8

/-- C8 counterexample: the single letter a satisfies the rule as the claim
states it (lowercase first letter, every remaining character valid), yet
validatePkgName rejects it, because the regular expression demands at least
one character after the first. -/
theorem validatePkgName_single_letter_cex :
    specPkgNameRule "a" = true ∧ validatePkgName "a" = false := by
  decide

/-- C8 amended: validatePkgName accepts exactly the strings of length at
least two that start with a lowercase letter whose remaining characters are
lowercase letters, digits or underscores; and a successful
ReadMemPackageFromList on a non-empty package always carries an accepted
package name. -/
theorem validatePkgName_amended (s : String)
    (parse : String → String → Option String) (list : List MemFile)
    (pkgPath : String) (m : MemPackage) :
    (validatePkgName s = true ↔
      (∃ c rest, s.data = c :: rest ∧ lowerAZ c = true ∧ rest ≠ [] ∧
        ∀ x ∈ rest, pkgChar x = true)) ∧
    (ReadMemPackageFromList parse list pkgPath = some m →
      m.IsEmpty = false → validatePkgName m.pkgName = true) := by
  constructor
  · unfold validatePkgName rePkgNameMatches
    cases hsd : s.data with
    | nil => simp
    | cons c rest =>
        simp only [Bool.and_eq_true, Bool.not_eq_true', List.all_eq_true]
        constructor
        · rintro ⟨⟨h1, h2⟩, h3⟩
          refine ⟨c, rest, rfl, h1, ?_, h3⟩
          intro habs
          subst habs
          simp at h2
        · rintro ⟨c2, rest2, heq, h1, h2, h3⟩
          injection heq with hc hr
          subst hc
          subst hr
          refine ⟨⟨h1, ?_⟩, h3⟩
          cases rest with
          | nil => simp at h2
          | cons x xs => rfl
  · intro hr hne
    unfold ReadMemPackageFromList at hr
    split at hr
    · simp at hr
    · rename_i pkgName files hloop
      split at hr
      · split at hr
        · rename_i hval
          simp at hr
          subst hr
          exact hval
        · simp at hr
      · rename_i hemp
        simp at hr
        subst hr
        simp at hemp
        rw [hemp] at hne
        simp at hne

/-- Witness for C8: the amended rule accepts ab, and a concrete successful
non-empty read yields an accepted name. -/
theorem validatePkgName_amended_witness :
    validatePkgName "ab" = true ∧ validatePkgName pkgW.pkgName = true := by
  constructor
  · exact (validatePkgName_amended "ab" parseW [memFileW] "p" pkgW).1.mpr
      ⟨'a', ['b'], by decide, by decide, by decide, by decide⟩
  · exact (validatePkgName_amended "ab" parseW [memFileW] "p" pkgW).2
      (by decide) (by decide)

-- ----------------------------------------
-- Characterization of GetPathForName (used by C5 and C9)

theorem newValuePath_some_eq {t : VPType} {d i : Nat} {nm : GName}
    {vp : ValuePath} (h : NewValuePath t d i nm = some vp) :
    vp = { Vtype := t, Depth := d, Index := i, Name := nm } := by
  unfold NewValuePath at h
  split at h
  · simp at h
    exact h.symm
  · simp at h

theorem countFaux_nil : countFaux [] = 0 := by
  simp [countFaux]

theorem countFaux_cons (b : StaticBlock) (l : List StaticBlock) :
    countFaux (b :: l) = (if b.isFauxChild then 1 else 0) + countFaux l := by
  cases hb : b.isFauxChild
  all_goals simp [countFaux, List.countP_cons, hb]
  all_goals omega

theorem gpfnLoop_inv (uv : StaticBlock) (n : GName) :
    ∀ (rest : List StaticBlock) (gen faux : Nat) (p : ValuePath)
      (rest2 : List StaticBlock),
      gpfnLoop uv n rest gen faux = some (p, rest2) →
      (∃ k b restk idx, firstBlockIdx rest n = some k ∧
         rest.drop k = b :: restk ∧
         getLocalIndex b.Names n = some idx ∧
         p.Vtype = VPType.VPBlock ∧
         p.Depth = (gen + k) - (faux + countFaux (rest.take k)) ∧
         p.Index = idx ∧ p.Name = n ∧ p.Depth ≤ 127 ∧
         rest2 = (rest.take k).map (updExt n) ++ rest.drop k) ∨
      (∃ idx, firstBlockIdx rest n = none ∧
         getLocalIndex uv.Names n = some idx ∧
         p.Vtype = VPType.VPUverse ∧ p.Depth = 0 ∧ p.Index = idx ∧
         p.Name = n ∧ rest2 = rest.map (updExt n)) := by
  intro rest
  induction rest with
  | nil =>
      intro gen faux p rest2 h
      unfold gpfnLoop at h
      split at h
      · rename_i idx hidx
        split at h
        · rename_i vp hvp
          simp at h
          obtain ⟨hp, hr⟩ := h
          subst hp
          have hvpe := newValuePath_some_eq hvp
          subst hvpe
          right
          exact ⟨idx, rfl, hidx, rfl, rfl, rfl, rfl, by rw [hr]; rfl⟩
        · simp at h
      · simp at h
  | cons sn rest ih =>
      intro gen faux p rest2 h
      unfold gpfnLoop at h
      split at h
      · rename_i idx hidx
        split at h
        · simp at h
        · rename_i hlt
          split at h
          · rename_i vp hvp
            simp at h
            obtain ⟨hp, hr⟩ := h
            subst hp
            have hvpe := newValuePath_some_eq hvp
            subst hvpe
            left
            refine ⟨0, sn, rest, idx, by simp [firstBlockIdx, hidx], rfl,
              hidx, rfl, ?_, rfl, rfl, ?_, by simp [hr.symm]⟩
            · simp [countFaux_nil]
            · have := newValuePath_depth hvp
              simpa using this
          · simp at h
      · rename_i hmiss
        split at h
        · rename_i vp rest3 hrec
          simp at h
          obtain ⟨hp, hr⟩ := h
          subst hp
          rcases ih _ _ _ _ hrec with
            ⟨k, b, restk, idx, hfb, hdrop, hloc, hvt, hdep, hix, hnm, hbound, hrest3⟩ |
            ⟨idx, hfb, hloc, hvt, hdep, hix, hnm, hrest3⟩
          · left
            refine ⟨k + 1, b, restk, idx, ?_, ?_, hloc, hvt, ?_, hix, hnm,
              hbound, ?_⟩
            · simp [firstBlockIdx, hmiss, hfb]
            · simpa using hdrop
            · rw [hdep]
              have harith : (gen + 1 + k) -
                  ((if sn.isFauxChild then faux + 1 else faux) +
                    countFaux (rest.take k)) =
                  (gen + (k + 1)) -
                  (faux + countFaux ((sn :: rest).take (k + 1))) := by
                cases hsf : sn.isFauxChild <;>
                  simp [List.take_succ_cons, countFaux_cons, hsf] <;> omega
              exact harith
            · rw [hr.symm, hrest3]
              simp [List.take_succ_cons]
          · right
            refine ⟨idx, ?_, hloc, hvt, hdep, hix, hnm, ?_⟩
            · simp [firstBlockIdx, hmiss, hfb]
            · rw [hr.symm, hrest3]
              simp
        · simp at h

theorem getPathForName_inv (chain : List StaticBlock) (uv : StaticBlock)
    (n : GName) (p : ValuePath) (chain2 : List StaticBlock)
    (hnb : ¬n = blankIdentifier)
    (h : GetPathForName chain uv n = some (p, chain2)) :
    (∃ k b restk idx, firstBlockIdx chain n = some k ∧
       chain.drop k = b :: restk ∧
       getLocalIndex b.Names n = some idx ∧
       p.Vtype = VPType.VPBlock ∧
       p.Depth = (k + 1) - countFaux (chain.take k) ∧
       p.Index = idx ∧ p.Name = n ∧ p.Depth ≤ 127 ∧
       chain2 = (chain.take k).map (updExt n) ++ chain.drop k) ∨
    (∃ idx, firstBlockIdx chain n = none ∧
       getLocalIndex uv.Names n = some idx ∧
       p.Vtype = VPType.VPUverse ∧ p.Depth = 0 ∧ p.Index = idx ∧ p.Name = n ∧
       chain2 = chain.map (updExt n)) := by
  cases chain with
  | nil => simp [GetPathForName] at h
  | cons sb rest =>
      rw [GetPathForName] at h
      rw [if_neg hnb] at h
      split at h
      · rename_i idx hidx
        split at h
        · rename_i vp hvp
          simp at h
          obtain ⟨hp, hr⟩ := h
          subst hp
          subst hr
          have hvpe := newValuePath_some_eq hvp
          subst hvpe
          left
          refine ⟨0, sb, rest, idx, by simp [firstBlockIdx, hidx], rfl, hidx,
            rfl, by simp [countFaux_nil], rfl, rfl, by simp, rfl⟩
        · simp at h
      · rename_i hmiss
        split at h
        · rename_i vp rest3 hrec
          simp at h
          obtain ⟨hp, hr⟩ := h
          subst hp
          subst hr
          rcases gpfnLoop_inv uv n rest 2 (if sb.isFauxChild then 1 else 0)
              _ _ hrec with
            ⟨k, b, restk, idx, hfb, hdrop, hloc, hvt, hdep, hix, hnm, hbound,
              hrest3⟩ |
            ⟨idx, hfb, hloc, hvt, hdep, hix, hnm, hrest3⟩
          · left
            refine ⟨k + 1, b, restk, idx,
              by simp [firstBlockIdx, hmiss, hfb], by simpa using hdrop,
              hloc, hvt, ?_, hix, hnm, hbound, ?_⟩
            · rw [hdep]
              cases hsf : sb.isFauxChild
              all_goals simp [List.take_succ_cons, countFaux_cons, hsf]
              all_goals omega
            · rw [hrest3]
              simp [List.take_succ_cons]
          · right
            refine ⟨idx, by simp [firstBlockIdx, hmiss, hfb], hloc, hvt,
              hdep, hix, hnm, ?_⟩
            rw [hrest3]
            simp
        · simp at h

-- ----------------------------------------
-- Claim C5

/-- C5 counterexample: a file block traversed on the way to the defining
block records nothing: the chain comes back entirely unchanged, and in
particular the extern list of the traversed file block stays empty, against
the claim that every traversed non-defining scope records the name. -/
theorem extern_recording_file_cex :
    GetPathForName [fileBlockW, defBlockW] uvW "x" =
      some (pathTwoW, [fileBlockW, defBlockW]) ∧
    fileBlockW.Externs = [] := by
  decide

/-- C5 amended: during a successful resolution of a non-blank name, the
blocks strictly below the defining one (all of them when the name is only
found in the universal scope) are exactly the ones updated, each through
updExt: a non-file block records the name in its extern list, a file block
is left unchanged; the defining block and everything above it are left
unchanged. -/
theorem extern_recording_amended (chain chain2 : List StaticBlock)
    (uv : StaticBlock) (n : GName) (p : ValuePath)
    (hnb : ¬n = blankIdentifier)
    (h : GetPathForName chain uv n = some (p, chain2)) :
    ∃ k, k ≤ chain.length ∧
      (firstBlockIdx chain n = some k ∨
        (firstBlockIdx chain n = none ∧ k = chain.length)) ∧
      chain2 = (chain.take k).map (updExt n) ++ chain.drop k ∧
      (∀ b : StaticBlock, b.isFileNode = false → n ∈ (updExt n b).Externs) ∧
      (∀ b : StaticBlock, b.isFileNode = true → updExt n b = b) := by
  rcases getPathForName_inv chain uv n p chain2 hnb h with
    ⟨k, b, restk, idx, hfb, hdrop, _, _, _, _, _, _, hchain2⟩ |
    ⟨idx, hfb, _, _, _, _, _, hchain2⟩
  · refine ⟨k, ?_, Or.inl hfb, hchain2,
      fun b hb => updExt_mem_of_not_file n b hb,
      fun b hb => updExt_of_file n b hb⟩
    have hlen : (chain.drop k).length = chain.length - k := by simp
    rw [hdrop] at hlen
    simp at hlen
    omega
  · refine ⟨chain.length, le_refl _, Or.inr ⟨hfb, rfl⟩, ?_,
      fun b hb => updExt_mem_of_not_file n b hb,
      fun b hb => updExt_of_file n b hb⟩
    rw [hchain2]
    simp

/-- Witness for C5 at a concrete resolution through a non-file block. -/
theorem extern_recording_amended_witness :
    ∃ k, k ≤ ([midBlockW, defBlockW] : List StaticBlock).length ∧
      (firstBlockIdx [midBlockW, defBlockW] "x" = some k ∨
        (firstBlockIdx [midBlockW, defBlockW] "x" = none ∧
          k = ([midBlockW, defBlockW] : List StaticBlock).length)) ∧
      [{ midBlockW with Externs := ["x"] }, defBlockW] =
        (([midBlockW, defBlockW] : List StaticBlock).take k).map (updExt "x") ++
          ([midBlockW, defBlockW] : List StaticBlock).drop k ∧
      (∀ b : StaticBlock, b.isFileNode = false →
        "x" ∈ (updExt "x" b).Externs) ∧
      (∀ b : StaticBlock, b.isFileNode = true → updExt "x" b = b) :=
  extern_recording_amended [midBlockW, defBlockW]
    [{ midBlockW with Externs := ["x"] }, defBlockW] uvW "x" pathTwoW
    (by decide) (by decide)

-- ----------------------------------------
-- Chain well-formedness lemmas (used by C9)

theorem countFaux_take_le (l : List StaticBlock) (k : Nat) :
    countFaux (l.take k) ≤ k := by
  unfold countFaux
  calc List.countP (fun b => b.isFauxChild) (l.take k) ≤ (l.take k).length :=
        List.countP_le_length _
    _ ≤ k := by
        rw [List.length_take]
        exact min_le_left _ _

theorem countFaux_map_updExt (n : GName) (l : List StaticBlock) :
    countFaux (l.map (updExt n)) = countFaux l := by
  unfold countFaux
  rw [List.countP_map]
  apply List.countP_congr
  intro a _
  simp [Function.comp, updExt_isFauxChild]

theorem wfChain_head {b : StaticBlock} {rest : List StaticBlock}
    (h : wfChain (b :: rest) = true) :
    b.NumNames = b.Names.length ∧
    (b.isFauxChild = true →
      ∃ pb rest2, rest = pb :: rest2 ∧ pb.isFauxChild = false ∧
        ∃ ts, pb.Names ++ ts = b.Names) ∧
    wfChain rest = true := by
  unfold wfChain at h
  simp only [Bool.and_eq_true, beq_iff_eq] at h
  obtain ⟨⟨hnum, hif⟩, hrest⟩ := h
  refine ⟨hnum, ?_, hrest⟩
  intro hbf
  rw [hbf] at hif
  simp only [if_true] at hif
  cases rest with
  | nil => simp at hif
  | cons pb rest2 =>
      simp only [Bool.and_eq_true, Bool.not_eq_true'] at hif
      obtain ⟨hp1, hp2⟩ := hif
      exact ⟨pb, rest2, rfl, hp1, List.isPrefixOf_iff_prefix.mp hp2⟩

theorem wfChain_cons_intro {b : StaticBlock} {rest : List StaticBlock}
    (hnum : b.NumNames = b.Names.length)
    (hfaux : b.isFauxChild = true →
      ∃ pb rest2, rest = pb :: rest2 ∧ pb.isFauxChild = false ∧
        ∃ ts, pb.Names ++ ts = b.Names)
    (hrest : wfChain rest = true) : wfChain (b :: rest) = true := by
  unfold wfChain
  simp only [Bool.and_eq_true, beq_iff_eq]
  refine ⟨⟨hnum, ?_⟩, hrest⟩
  cases hbf : b.isFauxChild
  · simp
  · obtain ⟨pb, rest2, hre, h1, ts, h2⟩ := hfaux hbf
    subst hre
    simp only [if_true]
    simp only [Bool.and_eq_true, Bool.not_eq_true']
    exact ⟨h1, List.isPrefixOf_iff_prefix.mpr ⟨ts, h2⟩⟩

theorem wfChain_drop :
    ∀ (C : List StaticBlock) (k : Nat), wfChain C = true →
      wfChain (C.drop k) = true := by
  intro C
  induction C with
  | nil =>
      intro k h
      simp [h]
  | cons b rest ih =>
      intro k h
      cases k with
      | zero => exact h
      | succ kk => exact ih kk (wfChain_head h).2.2

theorem wfChain_updTake (n : GName) :
    ∀ (C : List StaticBlock) (k : Nat), wfChain C = true →
      wfChain ((C.take k).map (updExt n) ++ C.drop k) = true := by
  intro C
  induction C with
  | nil =>
      intro k h
      simpa using h
  | cons b rest ih =>
      intro k h
      cases k with
      | zero => exact h
      | succ kk =>
          obtain ⟨hnum, hfaux, hrest⟩ := wfChain_head h
          simp only [List.take_succ_cons, List.drop_succ_cons, List.map_cons,
            List.cons_append]
          apply wfChain_cons_intro
          · rw [updExt_NumNames, updExt_Names]
            exact hnum
          · rw [updExt_isFauxChild]
            intro hbf
            obtain ⟨pb, rest2, hre, h1, ts, h2⟩ := hfaux hbf
            subst hre
            cases kk with
            | zero =>
                exact ⟨pb, rest2, rfl, h1, ts, by rw [updExt_Names]; exact h2⟩
            | succ jj =>
                refine ⟨updExt n pb,
                  (rest2.take jj).map (updExt n) ++ rest2.drop jj, ?_,
                  by rw [updExt_isFauxChild]; exact h1, ts, ?_⟩
                · simp [List.take_succ_cons]
                · rw [updExt_Names, updExt_Names]
                  exact h2
          · exact ih kk hrest

theorem firstBlockIdx_cons_succ {b : StaticBlock} {rest : List StaticBlock}
    {n : GName} {k : Nat} (h : firstBlockIdx (b :: rest) n = some (k + 1)) :
    (getLocalIndex b.Names n).isSome = false ∧
    firstBlockIdx rest n = some k := by
  unfold firstBlockIdx at h
  split at h
  · simp at h
  · rename_i hm
    cases hfm : firstBlockIdx rest n with
    | none => rw [hfm] at h; simp at h
    | some j =>
        rw [hfm] at h
        simp at h
        refine ⟨by simpa using hm, ?_⟩
        exact congrArg some (by omega)

theorem firstBlockIdx_cons_zero {b : StaticBlock} {rest : List StaticBlock}
    {n : GName} (h : firstBlockIdx (b :: rest) n = some 0) :
    (getLocalIndex b.Names n).isSome = true := by
  unfold firstBlockIdx at h
  split at h
  · assumption
  · rename_i hm
    cases hfm : firstBlockIdx rest n with
    | none => rw [hfm] at h; simp at h
    | some j => rw [hfm] at h; simp at h

theorem firstBlockIdx_updTake (n : GName) :
    ∀ (C : List StaticBlock) (k : Nat), firstBlockIdx C n = some k →
      firstBlockIdx ((C.take k).map (updExt n) ++ C.drop k) n = some k := by
  intro C
  induction C with
  | nil =>
      intro k h
      simp [firstBlockIdx] at h
  | cons b rest ih =>
      intro k h
      cases k with
      | zero => exact h
      | succ kk =>
          obtain ⟨hm, hfb⟩ := firstBlockIdx_cons_succ h
          simp only [List.take_succ_cons, List.drop_succ_cons, List.map_cons,
            List.cons_append]
          unfold firstBlockIdx
          rw [updExt_Names]
          rw [if_neg (by simp [hm])]
          rw [ih kk hfb]
          rfl

/-- Where the ancestor walk of GetBlockNodeForPath lands, starting from a
well-formed chain whose first block declaring n sits at position k: either
directly on that block, or on the faux child immediately below it. -/
theorem gbnWalk_lands (n : GName) :
    ∀ (k : Nat) (C : List StaticBlock), wfChain C = true →
      firstBlockIdx C n = some k →
      ∃ b restk, C.drop k = b :: restk ∧
        (gbnWalk C (k - countFaux (C.take k)) = some (b, restk) ∨
         (∃ c, c.isFauxChild = true ∧ 1 ≤ k ∧
            C.drop (k - 1) = c :: b :: restk ∧
            gbnWalk C (k - countFaux (C.take k)) = some (c, b :: restk))) := by
  intro k
  induction k using Nat.strong_induction_on with
  | _ k ih =>
    intro C hwf hfb
    cases C with
    | nil => simp [firstBlockIdx] at hfb
    | cons b0 rest =>
      cases k with
      | zero =>
          refine ⟨b0, rest, rfl, Or.inl ?_⟩
          have hz : 0 - countFaux ((b0 :: rest).take 0) = 0 := by simp
          rw [hz]
          rfl
      | succ kk =>
          obtain ⟨hmiss, hfb1⟩ := firstBlockIdx_cons_succ hfb
          obtain ⟨hnum0, hfaux0, hwfrest⟩ := wfChain_head hwf
          cases hsf : b0.isFauxChild
          case false =>
            obtain ⟨b, restk, hdrop, hcase⟩ := ih kk (by omega) rest hwfrest hfb1
            have hcfle := countFaux_take_le rest kk
            have hs : (kk + 1) - countFaux ((b0 :: rest).take (kk + 1)) =
                (kk - countFaux (rest.take kk)) + 1 := by
              simp [List.take_succ_cons, countFaux_cons, hsf]
              omega
            refine ⟨b, restk, by simpa using hdrop, ?_⟩
            rcases hcase with hwalk | ⟨c, hcf, hk1, hdropc, hwalk⟩
            · left
              rw [hs]
              unfold gbnWalk
              rw [if_neg (by simp [hsf])]
              exact hwalk
            · right
              refine ⟨c, hcf, by omega, ?_, ?_⟩
              · have he : kk + 1 - 1 = (kk - 1) + 1 := by omega
                rw [he]
                simpa using hdropc
              · rw [hs]
                unfold gbnWalk
                rw [if_neg (by simp [hsf])]
                exact hwalk
          case true =>
            obtain ⟨pb, rest2, hre, hpbf, ts, hpre⟩ := hfaux0 hsf
            subst hre
            cases kk with
            | zero =>
                refine ⟨pb, rest2, by simp,
                  Or.inr ⟨b0, hsf, le_refl 1, by simp, ?_⟩⟩
                have hs : 1 - countFaux ((b0 :: pb :: rest2).take 1) = 0 := by
                  simp [List.take_succ_cons, countFaux_cons, hsf, countFaux_nil]
                rw [hs]
                rfl
            | succ jj =>
                obtain ⟨hpbmiss, hfb2⟩ := firstBlockIdx_cons_succ hfb1
                obtain ⟨hnum1, hfaux1, hwfrest2⟩ := wfChain_head hwfrest
                obtain ⟨b, restk, hdrop, hcase⟩ :=
                  ih jj (by omega) rest2 hwfrest2 hfb2
                have hcfle := countFaux_take_le rest2 jj
                have hs : (jj + 1 + 1) -
                    countFaux ((b0 :: pb :: rest2).take (jj + 1 + 1)) =
                    (jj - countFaux (rest2.take jj)) + 1 := by
                  simp [List.take_succ_cons, countFaux_cons, hsf, hpbf]
                  omega
                refine ⟨b, restk, by simpa using hdrop, ?_⟩
                rcases hcase with hwalk | ⟨c, hcf, hk1, hdropc, hwalk⟩
                · left
                  rw [hs]
                  unfold gbnWalk
                  rw [if_pos (by simp [hsf])]
                  exact hwalk
                · right
                  refine ⟨c, hcf, by omega, ?_, ?_⟩
                  · have he : jj + 1 + 1 - 1 = (jj - 1) + 1 + 1 := by omega
                    rw [he]
                    simpa using hdropc
                  · rw [hs]
                    unfold gbnWalk
                    rw [if_pos (by simp [hsf])]
                    exact hwalk

theorem gbnfp_eq (C : List StaticBlock) (d i : Nat) (nm : GName) :
    GetBlockNodeForPath C
      { Vtype := VPType.VPBlock, Depth := d, Index := i, Name := nm } =
      match gbnWalk C (d - 1) with
      | none => none
      | some (bn, rest) =>
          if bn.isFauxChild then
            match rest with
            | [] => none
            | pn :: _ => if i < pn.NumNames then some pn else some bn
          else some bn := by
  unfold GetBlockNodeForPath
  rw [if_pos rfl]

/-- Finishing the locate after the walk: the returned block declares n at
the index the path carries. -/
theorem gbnfp_found (C : List StaticBlock) (n : GName) (k idx : Nat)
    (hwf : wfChain C = true) (hfb : firstBlockIdx C n = some k)
    (b : StaticBlock) (restk : List StaticBlock)
    (hdrop : C.drop k = b :: restk)
    (hloc : getLocalIndex b.Names n = some idx) :
    ∃ r, GetBlockNodeForPath C
        { Vtype := VPType.VPBlock, Depth := (k + 1) - countFaux (C.take k),
          Index := idx, Name := n } = some r ∧
      getLocalIndex r.Names n = some idx := by
  obtain ⟨b2, restk2, hdrop2, hcase⟩ := gbnWalk_lands n k C hwf hfb
  rw [hdrop] at hdrop2
  injection hdrop2 with hb2 hr2
  subst hb2
  subst hr2
  have hwfd := wfChain_drop C k hwf
  rw [hdrop] at hwfd
  have hcfle := countFaux_take_le C k
  have hd1 : ((k + 1) - countFaux (C.take k)) - 1 = k - countFaux (C.take k) := by
    omega
  rw [gbnfp_eq, hd1]
  rcases hcase with hwalk | ⟨c, hcf, hk1, hdropc, hwalk⟩
  · rw [hwalk]
    by_cases hbf : b.isFauxChild = true
    · obtain ⟨hnumb, hfauxb, hwfrestk⟩ := wfChain_head hwfd
      obtain ⟨pb, rest2, hre, hpbf, ts, hpre⟩ := hfauxb hbf
      subst hre
      obtain hnum2 := (wfChain_head hwfrestk).1
      by_cases hix : idx < pb.NumNames
      · refine ⟨pb, by simp [hbf, hix], ?_⟩
        have hixlen : idx < pb.Names.length := by omega
        have hglo : getLocalIndex (pb.Names ++ ts) n = some idx := by
          rw [hpre]
          exact hloc
        exact getLocalIndex_of_append_lt hglo hixlen
      · exact ⟨b, by simp [hbf, hix], hloc⟩
    · exact ⟨b, by simp [hbf], hloc⟩
  · rw [hwalk]
    have hnumb := (wfChain_head hwfd).1
    have hlt : idx < b.Names.length := getLocalIndex_lt_length hloc
    refine ⟨b, ?_, hloc⟩
    have hltn : idx < b.NumNames := by omega
    simp [hcf, hltn]

-- ----------------------------------------
-- Claim C9

/-- C9: resolve and locate round-trip.  On a well-formed chain (NumNames
consistent; every faux child followed by its non-faux faux parent whose
names were copied in front of the faux child, as the preprocessor
establishes), when GetPathForName returns a VPBlock path of depth at least
one, GetBlockNodeForPath on the resulting chain returns a block that
declares the name locally at exactly the index of the path, including when the
declaring node is the faux parent of a faux child block. -/
theorem resolve_locate_round_trip (chain chain2 : List StaticBlock)
    (uv : StaticBlock) (n : GName) (p : ValuePath)
    (hwf : wfChain chain = true) (hnb : ¬n = blankIdentifier)
    (h : GetPathForName chain uv n = some (p, chain2))
    (hvt : p.Vtype = VPType.VPBlock) (hd : 1 ≤ p.Depth) :
    ∃ r, GetBlockNodeForPath chain2 p = some r ∧
      getLocalIndex r.Names n = some p.Index := by
  rcases getPathForName_inv chain uv n p chain2 hnb h with
    ⟨k, b, restk, idx, hfb, hdrop, hloc, hvt2, hdep, hix, hnm, hbound,
      hchain2⟩ |
    ⟨idx, hfb, hloc, hvt2, hdep, hix, hnm, hchain2⟩
  · have hklt : k < chain.length := by
      have hlen : (chain.drop k).length = chain.length - k := by simp
      rw [hdrop] at hlen
      simp at hlen
      omega
    have hAlen : ((chain.take k).map (updExt n)).length = k := by
      simp [List.length_take]
      omega
    have hdrop2 : chain2.drop k = b :: restk := by
      rw [hchain2, List.drop_left' hAlen]
      exact hdrop
    have htake2 : chain2.take k = (chain.take k).map (updExt n) := by
      rw [hchain2, List.take_left' hAlen]
    have hcf2 : countFaux (chain2.take k) = countFaux (chain.take k) := by
      rw [htake2, countFaux_map_updExt]
    have hwf2 : wfChain chain2 = true := by
      rw [hchain2]
      exact wfChain_updTake n chain k hwf
    have hfb2 : firstBlockIdx chain2 n = some k := by
      rw [hchain2]
      exact firstBlockIdx_updTake n chain k hfb
    have hp : p =
        ValuePath.mk VPType.VPBlock ((k + 1) - countFaux (chain2.take k)) idx n := by
      rw [hcf2]
      cases p
      simp_all
    rw [hp]
    have hres := gbnfp_found chain2 n k idx hwf2 hfb2 b restk hdrop2 hloc
    simpa using hres
  · rw [hvt2] at hvt
    exact absurd hvt (by decide)

/-- Witness for C9 on a chain with a faux child (IfCaseStmt style) whose
faux parent carries a copied name, resolving a name declared two real
levels up. -/
theorem resolve_locate_round_trip_witness :
    ∃ r, GetBlockNodeForPath
        [{ icsBlockW with Externs := ["x"] },
          { ifsBlockW with Externs := ["x"] }, defBlockW] pathTwoW = some r ∧
      getLocalIndex r.Names "x" = some pathTwoW.Index :=
  resolve_locate_round_trip [icsBlockW, ifsBlockW, defBlockW]
    [{ icsBlockW with Externs := ["x"] },
      { ifsBlockW with Externs := ["x"] }, defBlockW]
    uvW "x" pathTwoW (by decide) (by decide) (by decide) (by decide)
    (by decide)

end Gno
